import Mathlib

/-!
Verification of the adaptive HTTP polling transport in `src/mettle/src/c2_http.c`.

The file shallowly embeds the transport's state (`struct http_ctx`), the two
callbacks (`http_poll_timer_cb`, `http_poll_cb`), the first-contact URL
rewrite (`patch_uri`) and the lifecycle hooks, and proves the frozen claims
about the scheduling/backoff state machine against that embedding.

The poll timer's `repeat` field is an `ev_tstamp`, i.e. a C `double`, and the
backoff arithmetic (`+= 0.1`, comparisons against `0.1` and `5.0`) is IEEE-754
binary64 arithmetic.  Every double value reached by the transport lies in
`[0.01, 6)` and is an exact integer multiple of `2 ^ (-59)` (the unit in the
last place of the binade of `0.01`), so doubles are embedded as natural
numbers scaled by `2 ^ 59`: the natural number `n` stands for the real value
`n / 2 ^ 59`.  Addition of two doubles is exact addition of the scaled values
followed by `round64`, the IEEE round-to-nearest, ties-to-even rounding to a
53-bit significand; comparisons of doubles are comparisons of the scaled
values.  Subnormals and overflow never arise in this range and are not
modelled.
-/

set_option maxRecDepth 8000

namespace C2Http

/-- Scale factor of the fixed-point embedding of `double`: the natural
number `n` represents the real value `n / SCALE`. -/
def SCALE : ℕ := 2 ^ 59

/-- Number of significand bits of `x` in excess of 53, i.e.
`bitlength x - 53` when `x` has more than 53 bits and `0` otherwise
(valid for `x < 2 ^ 69`, far beyond the range used here).  A scaled value
with `53 + k` bits lies in the binade whose unit in the last place is
`2 ^ k` scaled units, so `k` is the number of low bits that binary64
rounding must discard. -/
def dropBits (x : ℕ) : ℕ :=
  (List.range 16).foldl (fun a i => if 2 ^ (53 + i) ≤ x then i + 1 else a) 0

/-- Round a scaled value (an exact sum of two doubles) to the nearest
representable binary64 value, ties to even. -/
def round64 (x : ℕ) : ℕ :=
  let k := dropBits x
  if k = 0 then x
  else
    let u := 2 ^ k
    let q := x / u
    let r := x % u
    if 2 * r < u then q * u
    else if u < 2 * r then (q + 1) * u
    else if q % 2 = 0 then q * u else (q + 1) * u

/-- The binary64 value nearest to the rational `p / q` (ties to even), as a
scaled value.  Used to obtain the doubles denoted by the C literals `0.01`
and `0.1`. -/
def ofRat64 (p q : ℕ) : ℕ :=
  let n := p * SCALE
  let k := dropBits (n / q)
  let d := 2 ^ k * q
  let m := n / d
  let r := n % d
  if 2 * r < d then m * 2 ^ k
  else if d < 2 * r then (m + 1) * 2 ^ k
  else if m % 2 = 0 then m * 2 ^ k else (m + 1) * 2 ^ k

/-- The C double literal `0.01` (fast-poll interval set by
`http_transport_start` and by the `got_command` reset), scaled. -/
def D0_01 : ℕ := ofRat64 1 100

/-- The C double literal `0.1` (backoff floor and increment), scaled. -/
def D0_1 : ℕ := ofRat64 1 10

/-- The C double literal `5.0` (backoff ceiling), scaled.  `5.0` is exactly
representable. -/
def D5 : ℕ := 5 * SCALE

/-- IEEE binary64 addition of two scaled doubles: exact sum, then rounding. -/
def addD (x y : ℕ) : ℕ := round64 (x + y)

/-- Result of decoding one TLV frame from a response body, as seen by
`patch_uri`.  Modelled from the spec: the frame codec
(`tlv_packet_read_buffer_queue`, `tlv_packet_get_str`) lives outside this
file's source; per the spec it yields an optional frame with an optional
string per field, a missing field reading as a null pointer. -/
structure TlvFrame where
  /-- `tlv_packet_get_str(request, TLV_TYPE_METHOD)`; `none` = NULL. -/
  method : Option String
  /-- `tlv_packet_get_str(request, TLV_TYPE_TRANS_URL)`; `none` = NULL. -/
  transUrl : Option String
deriving DecidableEq

/-- `strchr(s + start, c)` as an index into `s`: the position of the first
occurrence of `c` at index `≥ start`, or `none`. -/
def strchrIdx (s : List Char) (start : ℕ) (c : Char) : Option ℕ :=
  ((s.drop start).findIdx? (· = c)).map (start + ·)

/-- The split-point search loop of `patch_uri`: starting from the head of
the URI, three iterations of `split = strchr(split + 1, '/')`, breaking on
NULL. -/
def findSplit (s : List Char) : Option ℕ :=
  (strchrIdx s 1 '/').bind fun i =>
    (strchrIdx s (i + 1) '/').bind fun j =>
      strchrIdx s (j + 1) '/'

/-- `patch_uri` from `c2_http.c`: given the current endpoint URI, the decoded
handshake frame (if any) and whether the `asprintf` allocation succeeds,
returns the resulting URI — or `none` when the code crashes
(`strcmp(method, "core_patch_url")` dereferences a NULL `method`).
On a matching frame the code truncates the URI in place at the third `'/'`
found from index 1 (`*split = '\0'`), then `asprintf`s the truncation with
the new path appended; the old buffer is freed only when the allocation
succeeds, so on failure the URI remains the (already truncated) old buffer. -/
def patch_uri (uri : String) (decoded : Option TlvFrame) (allocOk : Bool) :
    Option String :=
  match decoded with
  | none => some uri
  | some f =>
    match f.method with
    | none => none
    | some m =>
      if m = "core_patch_url" then
        match f.transUrl with
        | none => some uri
        | some nu =>
          let t : List Char :=
            match findSplit uri.data with
            | some i => uri.data.take i
            | none => uri.data
          if allocOk then some ⟨t ++ nu.data⟩ else some ⟨t⟩
      else some uri

/-- Spec-side scanner: the index (counting from `off`) of the `(k+1)`-th
occurrence of `c` in a list, scanning left to right. -/
def nthIdxFrom (c : Char) : List Char → ℕ → ℕ → Option ℕ
  | [], _, _ => none
  | a :: t, i, k =>
    if a = c then
      if k = 0 then some i else nthIdxFrom c t (i + 1) (k - 1)
    else nthIdxFrom c t (i + 1) k

/-- Spec-side split point: the index of the third `'/'` of the URI among
indices `≥ 1` (for a `scheme://host/path` URI this is the delimiter that
ends the authority). -/
def specSplit (s : List Char) : Option ℕ := nthIdxFrom '/' (s.drop 1) 1 2

/-- Spec-side statement of the rewrite that the code actually performs on a
matching handshake frame with a successful allocation: truncate at the third
`'/'` (searched from index 1) and append the new path; with fewer than three
such delimiters, append the new path to the whole endpoint. -/
def rewriteSpec (uri np : String) : String :=
  match specSplit uri.data with
  | some i => ⟨uri.data.take i ++ np.data⟩
  | none => uri ++ np

/-- The mutable channel state of `struct http_ctx` (plus `armed`, the
event-loop fact of whether `poll_timer` is pending, which the C code keeps
inside libev via `ev_timer_again`). `timerRepeat` is `poll_timer.repeat`
as a scaled double. -/
structure Ctx where
  uri : String
  timerRepeat : ℕ
  egress : List ℕ
  firstPacket : Bool
  inFlight : Bool
  running : Bool
  armed : Bool
deriving DecidableEq

/-- HTTP request method of an issued request. -/
inductive Method where
  | get
  | post
deriving DecidableEq

/-- A request handed to `http_request`. -/
structure Request where
  uri : String
  method : Method
  body : List ℕ
deriving DecidableEq

/-- Externally visible effects of one callback invocation. -/
structure Output where
  /-- request issued via `http_request`, if any -/
  request : Option Request
  /-- reachability reported (`c2_transport_reachable/unreachable`), if any -/
  reachable : Option Bool
  /-- body handed to `c2_transport_ingress_queue`, if any -/
  ingress : Option (List ℕ)
deriving DecidableEq

/-- An output with no externally visible effect. -/
def noOut : Output := ⟨none, none, none⟩

/-- A completed HTTP exchange as seen by `http_poll_cb`: the final status
code (`0` or negative = transport failure) and the response body bytes,
together with the TLV decode of that body (modelled from the spec, see
`TlvFrame`). -/
structure Response where
  code : ℤ
  body : List ℕ
  decoded : Option TlvFrame
deriving DecidableEq

/-- The `got_command` flag that `http_poll_cb` computes for a response:
a 200 that is either the handshake or carries a non-empty body. -/
def gotCommand (c : Ctx) (r : Response) : Bool :=
  decide (r.code = 200 ∧ (c.firstPacket = true ∨ r.body ≠ []))

/-- The backoff update at the end of `http_poll_cb`, on the scaled-double
`repeat` field: reset to `0.01` on a command, else jump to `0.1` from below,
else `+= 0.1` while below `5.0`. -/
def backoff (rpt : ℕ) (got : Bool) : ℕ :=
  if got then D0_01
  else if rpt < D0_1 then D0_1
  else if rpt < D5 then addD rpt D0_1
  else rpt

/-- The response-interpretation core of `http_poll_cb`: the new URI, new
`first_packet` flag, ingress hand-off and `got_command` flag — or `none`
when `patch_uri` crashes. -/
def pollBody (c : Ctx) (r : Response) (allocOk : Bool) :
    Option (String × Bool × Option (List ℕ) × Bool) :=
  if r.code = 200 then
    if c.firstPacket = true then
      match patch_uri c.uri r.decoded allocOk with
      | none => none
      | some u => some (u, false, none, true)
    else if r.body.length ≠ 0 then some (c.uri, c.firstPacket, some r.body, true)
    else some (c.uri, c.firstPacket, none, false)
  else some (c.uri, c.firstPacket, none, false)

/-- `http_poll_cb` from `c2_http.c`: report reachability from the sign of
the status code, interpret the response (`pollBody`), apply the backoff
update and clear `in_flight`.  `none` = the process crashed inside
`patch_uri`. -/
def http_poll_cb (c : Ctx) (r : Response) (allocOk : Bool) :
    Option (Ctx × Output) :=
  match pollBody c r allocOk with
  | none => none
  | some (u, fp, ing, got) =>
    some ({ c with
              uri := u
              firstPacket := fp
              timerRepeat := backoff c.timerRepeat got
              inFlight := false },
          ⟨none, some (decide (0 < r.code)), ing⟩)

/-- `http_poll_timer_cb` from `c2_http.c`: if no request is in flight, mark
one in flight and issue a POST of the fully drained egress queue when it is
non-empty, else a GET; then rearm the timer iff `running` (so the timer
stays armed exactly when `running`). -/
def http_poll_timer_cb (c : Ctx) : Ctx × Output :=
  let (c1, req) :=
    if c.inFlight then (c, none)
    else
      if 0 < c.egress.length then
        ({ c with inFlight := true, egress := [] },
         some ⟨c.uri, Method.post, c.egress⟩)
      else
        ({ c with inFlight := true }, some ⟨c.uri, Method.get, []⟩)
  ({ c1 with armed := c1.running }, ⟨req, none, none⟩)

/-- `http_transport_start`: set `running`, reset the interval to `0.01`,
arm the timer. -/
def http_transport_start (c : Ctx) : Ctx :=
  { c with running := true, timerRepeat := D0_01, armed := true }

/-- `http_transport_stop`: clear `running` (and nothing else — the armed
timer is not cancelled). -/
def http_transport_stop (c : Ctx) : Ctx :=
  if c.running then { c with running := false } else c

/-- `http_transport_egress`: `buffer_queue_move_all` appends the caller's
bytes to the context's egress queue. -/
def http_transport_egress (c : Ctx) (bs : List ℕ) : Ctx :=
  { c with egress := c.egress ++ bs }

/-- The context built by `http_transport_init` (the `calloc` zero state plus
the explicit initialisations; header/user-agent setup carries no scheduling
state). -/
def initCtx (uri : String) : Ctx :=
  { uri := uri
    timerRepeat := 0
    egress := []
    firstPacket := true
    inFlight := false
    running := false
    armed := false }

/-- The events that can drive a channel: the lifecycle hooks, a timer fire,
and the completion of the outstanding request (carrying the response and
whether the rewrite's allocation succeeds). -/
inductive Event where
  | start
  | stop
  | egressEv (bs : List ℕ)
  | tick
  | complete (r : Response) (allocOk : Bool)
deriving DecidableEq

/-- One transition of the channel.  `none` means the event cannot happen
(a timer fire while the timer is not armed, a completion with no request
outstanding) or that the process crashed handling it. -/
def stepEv (c : Ctx) (e : Event) : Option (Ctx × Output) :=
  match e with
  | Event.start => some (http_transport_start c, noOut)
  | Event.stop => some (http_transport_stop c, noOut)
  | Event.egressEv bs => some (http_transport_egress c bs, noOut)
  | Event.tick => if c.armed then some (http_poll_timer_cb c) else none
  | Event.complete r ok => if c.inFlight then http_poll_cb c r ok else none

/-- Run a sequence of events from a state, collecting the outputs. -/
def runEvents (c : Ctx) : List Event → Option (Ctx × List Output)
  | [] => some (c, [])
  | e :: es =>
    (stepEv c e).bind fun p =>
      (runEvents p.1 es).bind fun q => some (q.1, p.2 :: q.2)

/-- The bytes appended to the outbound queue by an event. -/
def evBytes : Event → List ℕ
  | Event.egressEv bs => bs
  | _ => []

/-- All bytes appended to the outbound queue over a sequence of events. -/
def appendedBytes (evs : List Event) : List ℕ := (evs.map evBytes).flatten

/-- The bytes carried as the body of the request issued by an output
(empty for GETs and for outputs that issue no request). -/
def outBytes (o : Output) : List ℕ :=
  match o.request with
  | some req => if req.method = Method.post then req.body else []
  | none => []

/-- All bytes sent as POST bodies over a sequence of outputs. -/
def postedBytes (outs : List Output) : List ℕ := (outs.map outBytes).flatten

/-- Number of outputs that issued an HTTP request. -/
def requestCount (outs : List Output) : ℕ :=
  (outs.filter (fun o => o.request.isSome)).length

/-- Whether an event is the completion of a request with status 200. -/
def isComplete200 : Event → Bool
  | Event.complete r _ => r.code = 200
  | _ => false

/-- One idle backoff step: the interval update of a poll with
`got_command = false` (empty-body 200, non-200, or failure). -/
def idleStep (rpt : ℕ) : ℕ := backoff rpt false

/-- The interval after `n` consecutive idle polls, starting from the `0.01`
set by `http_transport_start`. -/
def idleTraj : ℕ → ℕ
  | 0 => D0_01
  | n + 1 => idleStep (idleTraj n)

/-- Teardown state: whether `ctx->egress` is still a non-null pointer, and
how many times `buffer_queue_free` has been called on the queue it points
to.  Neither teardown path ever nulls the pointer. -/
structure FreeState where
  egressPtr : Bool
  queueFrees : ℕ
deriving DecidableEq

/-- `http_transport_free`: calls `buffer_queue_free(ctx->egress)`
unconditionally and does not null the pointer. -/
def http_transport_free (s : FreeState) : FreeState :=
  { s with queueFrees := s.queueFrees + 1 }

/-- `http_ctx_free`: frees the queue iff the pointer is non-null, and does
not null it (the whole context is freed afterwards). -/
def http_ctx_free (s : FreeState) : FreeState :=
  if s.egressPtr then { s with queueFrees := s.queueFrees + 1 } else s

/-- Teardown state of a live context: non-null queue pointer, queue not yet
freed. -/
def liveFreeState : FreeState := ⟨true, 0⟩

/-! Theorems. -/

/-- C1 (counterexample): for the endpoint `https://host`, which has fewer
than three `'/'` delimiters, a matching handshake frame with new path
`/v2/x` does not leave the endpoint unchanged: the code still appends the
new path, yielding `https://host/v2/x`. -/
theorem patch_uri_short_uri_rewritten :
    patch_uri "https://host" (some ⟨some "core_patch_url", some "/v2/x"⟩) true
      = some "https://host/v2/x" ∧
    ("https://host/v2/x" : String) ≠ "https://host" := by
  constructor
  · decide
  · decide

/-- C2 (code bug): on allocation failure during the rewrite of
`https://host/old/path` with new path `/v2/x`, the endpoint is not the old
value — `patch_uri` has already truncated the old buffer in place at the
third `'/'` (`*split = '\0'`) before `asprintf` runs, so the endpoint is
left as the partial value `https://host`. -/
theorem patch_uri_alloc_fail_truncates :
    patch_uri "https://host/old/path"
        (some ⟨some "core_patch_url", some "/v2/x"⟩) false
      = some "https://host" ∧
    ("https://host" : String) ≠ "https://host/old/path" := by
  constructor
  · decide
  · decide

/-- C4 (code bug): a first-200 response whose body decodes to a frame that
carries a new path but lacks the command/method field crashes the handler:
`strcmp(method, "core_patch_url")` dereferences the NULL `method`, both in
`patch_uri` and hence in the full completion callback. -/
theorem patch_uri_missing_method_crash :
    patch_uri "https://host/a" (some ⟨none, some "/x"⟩) true = none ∧
    http_poll_cb (initCtx "https://host/a") ⟨200, [1], some ⟨none, some "/x"⟩⟩
      true = none := by
  constructor
  · decide
  · decide

/-- C10 (code bug): running the two teardown entry points in sequence —
`http_transport_free` (the transport free hook) followed by `http_ctx_free`
(the context free function) — calls `buffer_queue_free` twice on the same
egress queue, because the first never nulls the pointer the second checks. -/
theorem teardown_double_free :
    (http_ctx_free (http_transport_free liveFreeState)).queueFrees = 2 ∧
    (http_transport_free liveFreeState).egressPtr = true := by
  constructor
  · decide
  · decide

/-- C5 (counterexample): after 51 consecutive idle polls from the starting
interval `0.01`, the poll interval exceeds `5.0`: the binary64 accumulation
`0.1 + 0.1 + ⋯` reaches `4.999999999999998`, which still compares `< 5.0`,
so one more `+= 0.1` lands on `5.099999999999998 > 5.0`. -/
theorem idle_interval_exceeds_cap : D5 < idleTraj 51 := by decide

/-- Once the interval is at or above the `5.0` ceiling, an idle poll leaves
it unchanged. -/
theorem idleStep_fix (r : ℕ) (h : D5 ≤ r) : idleStep r = r := by
  have h1 : D0_1 < D5 := by decide
  unfold idleStep backoff
  have h2 : ¬ r < D0_1 := by omega
  have h3 : ¬ r < D5 := by omega
  simp [h2, h3]

/-- The idle trajectory is constant from poll 51 on. -/
theorem idleTraj_const (k : ℕ) : idleTraj (51 + k) = idleTraj 51 := by
  induction k with
  | zero => rfl
  | succ n ih =>
    have hstep : idleTraj (51 + (n + 1)) = idleStep (idleTraj (51 + n)) := rfl
    rw [hstep, ih]
    exact idleStep_fix _ (by decide)

/-- C5 (amended): over any number of consecutive idle polls from `0.01`,
the interval is non-decreasing, bounded below by the double `0.01`, and
bounded above by the value reached after 51 idle polls — a cap that exceeds
`5.0` (see the counterexample) by less than `0.1`. -/
theorem idle_backoff_amended :
    (∀ n : ℕ, D0_01 ≤ idleTraj n ∧ idleTraj n ≤ idleTraj (n + 1) ∧
      idleTraj n ≤ idleTraj 51) ∧
    idleTraj 51 < D5 + D0_1 := by
  have hlo : ∀ m, m < 52 → D0_01 ≤ idleTraj m := by decide
  have hmono : ∀ m, m < 52 → idleTraj m ≤ idleTraj (m + 1) := by decide
  have hcap : ∀ m, m < 52 → idleTraj m ≤ idleTraj 51 := by decide
  constructor
  · intro n
    by_cases h : n < 52
    · exact ⟨hlo n h, hmono n h, hcap n h⟩
    · obtain ⟨k, rfl⟩ : ∃ k, n = 51 + k := ⟨n - 51, by omega⟩
      have h1 : idleTraj (51 + k) = idleTraj 51 := idleTraj_const k
      have h2 : idleTraj (51 + k + 1) = idleTraj 51 := idleTraj_const (k + 1)
      rw [h1, h2]
      exact ⟨hlo 51 (by omega), le_refl _, le_refl _⟩
  · decide

/-- Case description of the scheduler tick: an in-flight tick only rearms;
otherwise a POST of the drained queue (when non-empty) or a GET is issued
and `in_flight` is set. -/
theorem timer_cb_spec (c : Ctx) :
    http_poll_timer_cb c =
      if c.inFlight then ({ c with armed := c.running }, noOut)
      else if 0 < c.egress.length then
        ({ c with inFlight := true, egress := [], armed := c.running },
         ⟨some ⟨c.uri, Method.post, c.egress⟩, none, none⟩)
      else
        ({ c with inFlight := true, armed := c.running },
         ⟨some ⟨c.uri, Method.get, []⟩, none, none⟩) := by
  unfold http_poll_timer_cb
  by_cases h1 : c.inFlight <;> by_cases h2 : 0 < c.egress.length <;>
    simp [h1, h2, noOut]
/-- Shape of a successful completion callback: the new state and the output
in terms of the `pollBody` interpretation of the response. -/
theorem poll_cb_shape (c : Ctx) (r : Response) (ok : Bool) (c' : Ctx)
    (o : Output) (h : http_poll_cb c r ok = some (c', o)) :
    ∃ u fp ing got, pollBody c r ok = some (u, fp, ing, got) ∧
      c' = { c with
               uri := u
               firstPacket := fp
               timerRepeat := backoff c.timerRepeat got
               inFlight := false } ∧
      o = ⟨none, some (decide (0 < r.code)), ing⟩ := by
  unfold http_poll_cb at h
  cases hpb : pollBody c r ok with
  | none => rw [hpb] at h; simp at h
  | some q =>
    obtain ⟨u, fp, ing, got⟩ := q
    rw [hpb] at h
    simp only [Option.some.injEq, Prod.mk.injEq] at h
    exact ⟨u, fp, ing, got, rfl, h.1.symm, h.2.symm⟩

/-- Properties of the `pollBody` interpretation: its `got_command` flag is
`gotCommand`; `first_packet` comes out clear exactly when it was already
clear or the status is 200; post-handshake responses keep the URI and flag
and hand exactly a non-empty 200 body to ingress. -/
theorem pollBody_spec (c : Ctx) (r : Response) (ok : Bool) (u : String)
    (fp : Bool) (ing : Option (List ℕ)) (got : Bool)
    (h : pollBody c r ok = some (u, fp, ing, got)) :
    got = gotCommand c r ∧
    (fp = false ↔ (c.firstPacket = false ∨ r.code = 200)) ∧
    (c.firstPacket = false →
      u = c.uri ∧ fp = false ∧
      ing = if r.code = 200 ∧ r.body ≠ [] then some r.body else none) := by
  unfold pollBody at h
  by_cases h1 : r.code = 200
  · rw [if_pos h1] at h
    by_cases hfp : c.firstPacket = true
    · rw [if_pos hfp] at h
      cases hpu : patch_uri c.uri r.decoded ok with
      | none => rw [hpu] at h; exact absurd h (by simp)
      | some w =>
        rw [hpu] at h
        simp only [Option.some.injEq, Prod.mk.injEq] at h
        obtain ⟨hu, hf2, hi2, hg2⟩ := h
        subst hu; subst hf2; subst hi2; subst hg2
        refine ⟨by simp [gotCommand, h1, hfp], by simp [h1], fun hf => ?_⟩
        exact absurd hf (by simp [hfp])
    · rw [if_neg hfp] at h
      have hfp0 : c.firstPacket = false := by
        cases hb : c.firstPacket
        · rfl
        · exact absurd hb hfp
      by_cases h3 : r.body.length ≠ 0
      · rw [if_pos h3] at h
        simp only [Option.some.injEq, Prod.mk.injEq] at h
        obtain ⟨hu, hf2, hi2, hg2⟩ := h
        subst hu; subst hf2; subst hi2; subst hg2
        have hb : r.body ≠ [] := by
          intro hnil
          exact h3 (by simp [hnil])
        refine ⟨by simp [gotCommand, h1, hb], by simp [h1, hfp0], fun _ => ?_⟩
        exact ⟨rfl, hfp0, by simp [h1, hb]⟩
      · rw [if_neg h3] at h
        simp only [Option.some.injEq, Prod.mk.injEq] at h
        obtain ⟨hu, hf2, hi2, hg2⟩ := h
        subst hu; subst hf2; subst hi2; subst hg2
        have hb : r.body = [] := by
          rcases List.length_eq_zero.mp (by omega : r.body.length = 0) with h'
          exact h'
        refine ⟨by simp [gotCommand, h1, hfp0, hb], by simp [h1, hfp0],
          fun _ => ?_⟩
        exact ⟨rfl, hfp0, by simp [hb]⟩
  · rw [if_neg h1] at h
    simp only [Option.some.injEq, Prod.mk.injEq] at h
    obtain ⟨hu, hf2, hi2, hg2⟩ := h
    subst hu; subst hf2; subst hi2; subst hg2
    refine ⟨by simp [gotCommand, h1], by simp [h1], fun hf => ?_⟩
    exact ⟨rfl, hf, by simp [h1]⟩

/-- C7: every completion whose `got_command` is true — the first 200, or a
later 200 with non-empty body — resets the poll interval to exactly the
double `0.01`, whatever its prior value. -/
theorem got_command_fast_reset (c : Ctx) (r : Response) (ok : Bool)
    (c' : Ctx) (o : Output) (h : http_poll_cb c r ok = some (c', o))
    (hg : gotCommand c r = true) : c'.timerRepeat = D0_01 := by
  obtain ⟨u, fp, ing, got, hpb, hc, _⟩ := poll_cb_shape c r ok c' o h
  have hgot := (pollBody_spec c r ok u fp ing got hpb).1
  subst hc
  simp [hgot, hg, backoff]

/-- C7 witness: a post-handshake 200 with body `[7]` on a channel whose
interval had ramped to the `5.0` ceiling resets the interval to `0.01`. -/
theorem got_command_fast_reset_witness :
    (⟨"http://h/x", D0_01, [], false, false, true, true⟩ : Ctx).timerRepeat
      = D0_01 :=
  got_command_fast_reset
    ⟨"http://h/x", D5, [], false, true, true, true⟩ ⟨200, [7], none⟩ true
    ⟨"http://h/x", D0_01, [], false, false, true, true⟩
    ⟨none, some true, some [7]⟩ (by decide) (by decide)

/-- C8: at most one request is outstanding.  A tick with a request in
flight is a pure rearm (no request issued, no queue drain, no other state
change); a tick with none in flight issues a request and sets `in_flight`;
`in_flight` is cleared by the completion callback and by no other event. -/
theorem at_most_one_in_flight :
    (∀ c : Ctx, c.inFlight = true → c.armed = true →
      stepEv c Event.tick = some ({ c with armed := c.running }, noOut)) ∧
    (∀ (c c' : Ctx) (o : Output), c.inFlight = false →
      stepEv c Event.tick = some (c', o) →
      c'.inFlight = true ∧ o.request.isSome = true) ∧
    (∀ (c : Ctx) (r : Response) (ok : Bool) (c' : Ctx) (o : Output),
      http_poll_cb c r ok = some (c', o) → c'.inFlight = false) ∧
    (∀ (c : Ctx) (e : Event) (c' : Ctx) (o : Output),
      stepEv c e = some (c', o) → c.inFlight = true →
      (∀ r ok, e ≠ Event.complete r ok) → c'.inFlight = true) := by
  refine ⟨?_, ?_, ?_, ?_⟩
  · intro c hf ha
    simp [stepEv, ha, timer_cb_spec, hf]
  · intro c c' o hf h
    cases ha : c.armed with
    | false => simp [stepEv, ha] at h
    | true =>
      rw [stepEv] at h
      simp only [ha, if_true] at h
      rw [timer_cb_spec] at h
      simp only [hf, Bool.false_eq_true, if_false] at h
      by_cases he : 0 < c.egress.length <;>
        simp only [he, if_true, if_false, Option.some.injEq,
          Prod.mk.injEq] at h <;>
        obtain ⟨h1, h2⟩ := h <;> subst h1 <;> subst h2 <;> simp
  · intro c r ok c' o h
    obtain ⟨u, fp, ing, got, _, hc, _⟩ := poll_cb_shape c r ok c' o h
    subst hc
    simp
  · intro c e c' o h hf hne
    cases e with
    | start =>
      simp only [stepEv, Option.some.injEq, Prod.mk.injEq] at h
      obtain ⟨h1, _⟩ := h
      subst h1
      simpa [http_transport_start] using hf
    | stop =>
      simp only [stepEv, Option.some.injEq, Prod.mk.injEq] at h
      obtain ⟨h1, _⟩ := h
      subst h1
      unfold http_transport_stop
      by_cases hr : c.running <;> simp [hr, hf]
    | egressEv bs =>
      simp only [stepEv, Option.some.injEq, Prod.mk.injEq] at h
      obtain ⟨h1, _⟩ := h
      subst h1
      simpa [http_transport_egress] using hf
    | tick =>
      cases ha : c.armed with
      | false => simp [stepEv, ha] at h
      | true =>
        rw [stepEv] at h
        simp only [ha, if_true] at h
        rw [timer_cb_spec] at h
        simp only [hf, if_true, Option.some.injEq, Prod.mk.injEq] at h
        obtain ⟨h1, _⟩ := h
        subst h1
        simp [hf]
    | complete r ok => exact absurd rfl (hne r ok)

/-- C8 witness: a tick on an armed channel with a request in flight and a
non-empty queue is a pure rearm. -/
theorem at_most_one_in_flight_witness :
    stepEv ⟨"u", 0, [5], true, true, true, true⟩ Event.tick =
      some (⟨"u", 0, [5], true, true, true, true⟩, noOut) :=
  at_most_one_in_flight.1 ⟨"u", 0, [5], true, true, true, true⟩ rfl rfl

/-- Any successful step changes the handshake flag lawfully: it comes out
clear exactly when it was already clear or the event was a 200 completion. -/
theorem stepEv_firstPacket (c : Ctx) (e : Event) (c' : Ctx) (o : Output)
    (h : stepEv c e = some (c', o)) :
    (c'.firstPacket = false ↔
      (c.firstPacket = false ∨ isComplete200 e = true)) := by
  cases e with
  | start =>
    simp only [stepEv, Option.some.injEq, Prod.mk.injEq] at h
    obtain ⟨rfl, -⟩ := h
    simp [http_transport_start, isComplete200]
  | stop =>
    simp only [stepEv] at h
    rw [http_transport_stop] at h
    by_cases hr : c.running = true <;>
      simp only [hr, if_true, if_false, Option.some.injEq,
        Prod.mk.injEq] at h <;>
      obtain ⟨rfl, -⟩ := h <;> simp [isComplete200]
  | egressEv bs =>
    simp only [stepEv, Option.some.injEq, Prod.mk.injEq] at h
    obtain ⟨rfl, -⟩ := h
    simp [http_transport_egress, isComplete200]
  | tick =>
    cases ha : c.armed with
    | false => simp [stepEv, ha] at h
    | true =>
      rw [stepEv] at h
      simp only [ha, if_true] at h
      rw [timer_cb_spec] at h
      by_cases hf : c.inFlight = true
      · simp only [hf, if_true, Option.some.injEq, Prod.mk.injEq] at h
        obtain ⟨rfl, -⟩ := h
        simp [isComplete200]
      · simp only [hf, if_false] at h
        by_cases he : 0 < c.egress.length <;>
          simp only [he, if_true, if_false, Option.some.injEq,
            Prod.mk.injEq] at h <;>
          obtain ⟨rfl, -⟩ := h <;> simp [isComplete200]
  | complete r ok =>
    cases hif : c.inFlight with
    | false => simp [stepEv, hif] at h
    | true =>
      rw [stepEv] at h
      simp only [hif, if_true] at h
      obtain ⟨u, fp, ing, got, hpb, hc, -⟩ := poll_cb_shape c r ok c' o h
      have hiff := (pollBody_spec c r ok u fp ing got hpb).2.1
      subst hc
      simp only [isComplete200]
      simpa [decide_eq_true_iff] using hiff

/-- Over any successful run, the handshake flag ends clear exactly when it
started clear or some 200 completion occurred. -/
theorem runEvents_firstPacket (evs : List Event) :
    ∀ c c' outs, runEvents c evs = some (c', outs) →
      (c'.firstPacket = false ↔
        (c.firstPacket = false ∨ evs.any isComplete200 = true)) := by
  induction evs with
  | nil =>
    intro c c' outs h
    simp only [runEvents, Option.some.injEq, Prod.mk.injEq] at h
    obtain ⟨rfl, -⟩ := h
    simp
  | cons e es ih =>
    intro c c' outs h
    unfold runEvents at h
    cases hs : stepEv c e with
    | none => rw [hs] at h; exact absurd h (by simp)
    | some p =>
      obtain ⟨c1, o⟩ := p
      rw [hs] at h
      simp only [Option.some_bind] at h
      cases hr : runEvents c1 es with
      | none => rw [hr] at h; exact absurd h (by simp)
      | some q =>
        obtain ⟨c2, outs2⟩ := q
        rw [hr] at h
        simp only [Option.some_bind, Option.some.injEq, Prod.mk.injEq] at h
        obtain ⟨rfl, -⟩ := h
        have hstep := stepEv_firstPacket c e c1 o hs
        have htail := ih c1 c2 outs2 hr
        rw [htail, hstep]
        simp only [List.any_cons, Bool.or_eq_true]
        tauto

/-- C6: over the lifetime of a channel the handshake flag `first_packet`
clears exactly once — at the first 200 completion the handler survives,
whatever the body — and never returns; every later 200 is treated as
command data: the URI is untouched and a non-empty body goes to ingress. -/
theorem handshake_once :
    (∀ (c : Ctx) (evs : List Event) (c' : Ctx) (outs : List Output),
      runEvents c evs = some (c', outs) →
      (c'.firstPacket = false ↔
        (c.firstPacket = false ∨ evs.any isComplete200 = true))) ∧
    (∀ (c : Ctx) (r : Response) (ok : Bool) (c' : Ctx) (o : Output),
      c.firstPacket = false → r.code = 200 →
      http_poll_cb c r ok = some (c', o) →
      c'.uri = c.uri ∧ c'.firstPacket = false ∧
      o.ingress = if r.body = [] then none else some r.body) := by
  constructor
  · intro c evs c' outs h
    exact runEvents_firstPacket evs c c' outs h
  · intro c r ok c' o hfp h200 h
    obtain ⟨u, fp, ing, got, hpb, hc, ho⟩ := poll_cb_shape c r ok c' o h
    obtain ⟨hu, hfp2, hing⟩ := (pollBody_spec c r ok u fp ing got hpb).2.2 hfp
    subst hc; subst ho
    refine ⟨by simp [hu], by simp [hfp2], ?_⟩
    simp only [hing, h200]
    by_cases h3 : r.body = [] <;> simp [h3]

/-- C6 witness: a start, a tick and a 200 completion from a fresh context
leave the handshake flag cleared. -/
theorem handshake_once_witness :
    (⟨"http://h/x", D0_01, [], false, false, true, true⟩ : Ctx).firstPacket
      = false :=
  (handshake_once.1 (initCtx "http://h/x")
      [Event.start, Event.tick, Event.complete ⟨200, [], none⟩ true]
      ⟨"http://h/x", D0_01, [], false, false, true, true⟩
      [noOut, ⟨some ⟨"http://h/x", Method.get, []⟩, none, none⟩,
       ⟨none, some true, none⟩]
      (by decide)).mpr (Or.inr (by decide))

/-- Byte conservation of a single step: the bytes a step posts plus the
bytes still queued equal the bytes that were queued plus the bytes the
event appended. -/
theorem stepEv_bytes (c : Ctx) (e : Event) (c' : Ctx) (o : Output)
    (h : stepEv c e = some (c', o)) :
    outBytes o ++ c'.egress = c.egress ++ evBytes e := by
  cases e with
  | start =>
    simp only [stepEv, Option.some.injEq, Prod.mk.injEq] at h
    obtain ⟨rfl, rfl⟩ := h
    simp [http_transport_start, outBytes, evBytes, noOut]
  | stop =>
    simp only [stepEv] at h
    rw [http_transport_stop] at h
    by_cases hr : c.running = true <;>
      simp only [hr, if_true, if_false, Option.some.injEq,
        Prod.mk.injEq] at h <;>
      obtain ⟨rfl, rfl⟩ := h <;> simp [outBytes, evBytes, noOut]
  | egressEv bs =>
    simp only [stepEv, Option.some.injEq, Prod.mk.injEq] at h
    obtain ⟨rfl, rfl⟩ := h
    simp [http_transport_egress, outBytes, evBytes, noOut]
  | tick =>
    cases ha : c.armed with
    | false => simp [stepEv, ha] at h
    | true =>
      rw [stepEv] at h
      simp only [ha, if_true] at h
      rw [timer_cb_spec] at h
      by_cases hf : c.inFlight = true
      · simp only [hf, if_true, Option.some.injEq, Prod.mk.injEq] at h
        obtain ⟨rfl, rfl⟩ := h
        simp [outBytes, evBytes, noOut]
      · simp only [hf, if_false] at h
        by_cases he : 0 < c.egress.length <;>
          simp only [he, if_true, if_false, Option.some.injEq,
            Prod.mk.injEq] at h <;>
          obtain ⟨rfl, rfl⟩ := h <;> simp [outBytes, evBytes]
  | complete r ok =>
    cases hif : c.inFlight with
    | false => simp [stepEv, hif] at h
    | true =>
      rw [stepEv] at h
      simp only [hif, if_true] at h
      obtain ⟨u, fp, ing, got, hpb, hc, ho⟩ := poll_cb_shape c r ok c' o h
      subst hc; subst ho
      simp [outBytes, evBytes]

/-- Byte conservation over any successful run: the bytes posted so far plus
the bytes still queued equal the bytes initially queued plus all bytes
appended by the run. -/
theorem runEvents_bytes (evs : List Event) :
    ∀ c c' outs, runEvents c evs = some (c', outs) →
      postedBytes outs ++ c'.egress = c.egress ++ appendedBytes evs := by
  induction evs with
  | nil =>
    intro c c' outs h
    simp only [runEvents, Option.some.injEq, Prod.mk.injEq] at h
    obtain ⟨rfl, rfl⟩ := h
    simp [postedBytes, appendedBytes]
  | cons e es ih =>
    intro c c' outs h
    unfold runEvents at h
    cases hs : stepEv c e with
    | none => rw [hs] at h; exact absurd h (by simp)
    | some p =>
      obtain ⟨c1, o⟩ := p
      rw [hs] at h
      simp only [Option.some_bind] at h
      cases hr : runEvents c1 es with
      | none => rw [hr] at h; exact absurd h (by simp)
      | some q =>
        obtain ⟨c2, outs2⟩ := q
        rw [hr] at h
        simp only [Option.some_bind, Option.some.injEq, Prod.mk.injEq] at h
        obtain ⟨rfl, rfl⟩ := h
        have hstep := stepEv_bytes c e c1 o hs
        have htail := ih c1 c2 outs2 hr
        show outBytes o ++ postedBytes outs2 ++ c2.egress
          = c.egress ++ (evBytes e ++ appendedBytes es)
        calc outBytes o ++ postedBytes outs2 ++ c2.egress
            = outBytes o ++ (postedBytes outs2 ++ c2.egress) := by
              rw [List.append_assoc]
          _ = outBytes o ++ (c1.egress ++ appendedBytes es) := by rw [htail]
          _ = (outBytes o ++ c1.egress) ++ appendedBytes es := by
              rw [List.append_assoc]
          _ = (c.egress ++ evBytes e) ++ appendedBytes es := by rw [hstep]
          _ = c.egress ++ (evBytes e ++ appendedBytes es) := by
              rw [List.append_assoc]

/-- C9: queue drain is atomic and loss-free.  Over any run, the
concatenation of all POST bodies issued so far plus the bytes still queued
equals the initial queue plus everything appended — so every byte appended
before a draining tick rides in that tick's body, in order, and is never
resent.  A tick that fires with a non-empty queue and no request in flight
hands exactly the whole queue to a POST and leaves the queue empty. -/
theorem queue_drain_atomic :
    (∀ (c : Ctx) (evs : List Event) (c' : Ctx) (outs : List Output),
      runEvents c evs = some (c', outs) →
      postedBytes outs ++ c'.egress = c.egress ++ appendedBytes evs) ∧
    (∀ c : Ctx, c.armed = true → c.inFlight = false → 0 < c.egress.length →
      stepEv c Event.tick =
        some ({ c with inFlight := true, egress := [], armed := c.running },
              ⟨some ⟨c.uri, Method.post, c.egress⟩, none, none⟩)) := by
  constructor
  · intro c evs c' outs h
    exact runEvents_bytes evs c c' outs h
  · intro c ha hf he
    rw [stepEv]
    simp only [ha, if_true]
    rw [timer_cb_spec]
    simp [hf, he]

/-- C9 witness: bytes 1 and 2 queued before a tick come out as exactly that
tick's POST body, leaving the queue empty. -/
theorem queue_drain_atomic_witness :
    postedBytes [noOut, ⟨some ⟨"u", Method.post, [1, 2]⟩, none, none⟩] ++
        ([] : List ℕ) =
      ([] : List ℕ) ++ appendedBytes [Event.egressEv [1, 2], Event.tick] :=
  queue_drain_atomic.1 ⟨"u", 0, [], false, false, true, true⟩
    [Event.egressEv [1, 2], Event.tick]
    ⟨"u", 0, [], false, true, true, true⟩
    [noOut, ⟨some ⟨"u", Method.post, [1, 2]⟩, none, none⟩] (by decide)

/-- Counting requests distributes over cons. -/
theorem requestCount_cons (o : Output) (outs : List Output) :
    requestCount (o :: outs) =
      (if o.request.isSome = true then 1 else 0) + requestCount outs := by
  unfold requestCount
  by_cases h : o.request.isSome = true <;>
    simp [List.filter_cons, h, Nat.add_comm]

/-- After `running` is cleared and absent a new `start`, a run issues at
most one request when the timer is still armed and none when it is not. -/
theorem runEvents_stop_bound (evs : List Event) :
    ∀ c c' outs, c.running = false → (∀ e ∈ evs, e ≠ Event.start) →
      runEvents c evs = some (c', outs) →
      requestCount outs ≤ (if c.armed = true then 1 else 0) := by
  induction evs with
  | nil =>
    intro c c' outs _ _ h
    simp only [runEvents, Option.some.injEq, Prod.mk.injEq] at h
    obtain ⟨rfl, rfl⟩ := h
    simp only [requestCount, List.filter_nil, List.length_nil]
    split <;> omega
  | cons e es ih =>
    intro c c' outs hrun hns h
    unfold runEvents at h
    cases hs : stepEv c e with
    | none => rw [hs] at h; exact absurd h (by simp)
    | some p =>
      obtain ⟨c1, o⟩ := p
      rw [hs] at h
      simp only [Option.some_bind] at h
      cases hr : runEvents c1 es with
      | none => rw [hr] at h; exact absurd h (by simp)
      | some q =>
        obtain ⟨c2, outs2⟩ := q
        rw [hr] at h
        simp only [Option.some_bind, Option.some.injEq, Prod.mk.injEq] at h
        obtain ⟨rfl, rfl⟩ := h
        have hns' : ∀ e' ∈ es, e' ≠ Event.start := fun e' he' =>
          hns e' (List.mem_cons_of_mem _ he')
        rw [requestCount_cons]
        cases e with
        | start => exact absurd rfl (hns Event.start (List.mem_cons_self _ _))
        | stop =>
          simp only [stepEv, Option.some.injEq, Prod.mk.injEq] at hs
          obtain ⟨rfl, rfl⟩ := hs
          have htail := ih _ c2 outs2
            (by simp [http_transport_stop, hrun]) hns' hr
          simp only [http_transport_stop, hrun, Bool.false_eq_true,
            if_false] at htail
          simp only [noOut, Option.isSome_none, Bool.false_eq_true,
            if_false, Nat.zero_add]
          exact htail
        | egressEv bs =>
          simp only [stepEv, Option.some.injEq, Prod.mk.injEq] at hs
          obtain ⟨rfl, rfl⟩ := hs
          have htail := ih _ c2 outs2
            (by simp [http_transport_egress, hrun]) hns' hr
          simp only [http_transport_egress] at htail
          simp only [noOut, Option.isSome_none, Bool.false_eq_true,
            if_false, Nat.zero_add]
          exact htail
        | tick =>
          cases ha : c.armed with
          | false => simp [stepEv, ha] at hs
          | true =>
            rw [stepEv] at hs
            simp only [ha, if_true] at hs
            rw [timer_cb_spec] at hs
            simp only [ha, if_true]
            by_cases hf : c.inFlight = true
            · simp only [hf, if_true, Option.some.injEq,
                Prod.mk.injEq] at hs
              obtain ⟨rfl, rfl⟩ := hs
              have htail := ih _ c2 outs2 (by simp [hrun]) hns' hr
              simp only [hrun] at htail
              simp only [noOut, Option.isSome_none, Bool.false_eq_true,
                if_false, Nat.zero_add] at htail ⊢
              omega
            · simp only [hf, if_false] at hs
              by_cases he : 0 < c.egress.length
              · simp only [he, if_true, Option.some.injEq,
                  Prod.mk.injEq] at hs
                obtain ⟨rfl, rfl⟩ := hs
                have htail := ih _ c2 outs2 (by simp [hrun]) hns' hr
                simp only [hrun] at htail
                simp only [Bool.false_eq_true, if_false] at htail
                simp only [Option.isSome_some, if_true]
                omega
              · simp only [he, if_false, Option.some.injEq,
                  Prod.mk.injEq] at hs
                obtain ⟨rfl, rfl⟩ := hs
                have htail := ih _ c2 outs2 (by simp [hrun]) hns' hr
                simp only [hrun] at htail
                simp only [Bool.false_eq_true, if_false] at htail
                simp only [Option.isSome_some, if_true]
                omega
        | complete r ok =>
          cases hif : c.inFlight with
          | false => simp [stepEv, hif] at hs
          | true =>
            rw [stepEv] at hs
            simp only [hif, if_true] at hs
            obtain ⟨u, fp, ing, got, hpb, hc1, ho⟩ :=
              poll_cb_shape c r ok c1 o hs
            subst hc1; subst ho
            have htail := ih _ c2 outs2 (by simp [hrun]) hns' hr
            simp only [] at htail
            simp only [Option.isSome_none, Bool.false_eq_true, if_false,
              Nat.zero_add]
            simpa using htail

/-- C3 (amended): after `Stop` clears `running`, the timer is never
rearmed, so (absent a new `start`) at most one further request is issued —
by the tick already armed at stop time — and none when the timer is not
armed; a request in flight still completes, and its callback still reports
reachability and still applies the backoff update. -/
theorem stop_semantics_amended :
    (∀ (c : Ctx) (evs : List Event) (c' : Ctx) (outs : List Output),
      c.running = false → (∀ e ∈ evs, e ≠ Event.start) →
      runEvents c evs = some (c', outs) → requestCount outs ≤ 1) ∧
    (∀ (c : Ctx) (evs : List Event) (c' : Ctx) (outs : List Output),
      c.running = false → c.armed = false → (∀ e ∈ evs, e ≠ Event.start) →
      runEvents c evs = some (c', outs) → requestCount outs = 0) ∧
    (∀ (c : Ctx) (r : Response) (ok : Bool) (c' : Ctx) (o : Output),
      c.running = false → http_poll_cb c r ok = some (c', o) →
      o.reachable = some (decide (0 < r.code)) ∧ c'.inFlight = false ∧
      c'.timerRepeat = backoff c.timerRepeat (gotCommand c r)) := by
  refine ⟨?_, ?_, ?_⟩
  · intro c evs c' outs hrun hns h
    have := runEvents_stop_bound evs c c' outs hrun hns h
    split at this <;> omega
  · intro c evs c' outs hrun harm hns h
    have := runEvents_stop_bound evs c c' outs hrun hns h
    rw [harm] at this
    simp only [Bool.false_eq_true, if_false] at this
    omega
  · intro c r ok c' o _ h
    obtain ⟨u, fp, ing, got, hpb, hc, ho⟩ := poll_cb_shape c r ok c' o h
    have hgot := (pollBody_spec c r ok u fp ing got hpb).1
    subst hc; subst ho
    exact ⟨rfl, rfl, by simp [hgot]⟩

/-- C3 witness: a run consisting of the one still-armed tick after a stop
issues exactly one request, within the bound. -/
theorem stop_semantics_amended_witness :
    requestCount [(⟨some ⟨"u", Method.get, []⟩, none, none⟩ : Output)] ≤ 1 :=
  stop_semantics_amended.1 ⟨"u", 0, [], true, false, false, true⟩
    [Event.tick] ⟨"u", 0, [], true, true, false, false⟩
    [⟨some ⟨"u", Method.get, []⟩, none, none⟩] rfl (by decide) (by decide)

/-- C3 (counterexample): a tick that fires after `Stop` still issues a
request.  From a fresh context, `start` then `stop` leaves the timer armed;
the following tick issues a GET — so the claim that no subsequent scheduler
tick ever issues a request is false. -/
theorem tick_after_stop_issues_request :
    (runEvents (initCtx "http://h/x")
        [Event.start, Event.stop, Event.tick]).map
      (fun p => p.2.map (fun o => o.request)) =
    some [none, none, some (⟨"http://h/x", Method.get, []⟩ : Request)] := by
  decide


/-- The scanner only ever reports indices at or beyond its offset. -/
theorem nthIdxFrom_le (ch : Char) (t : List Char) :
    ∀ i k j, nthIdxFrom ch t i k = some j → i ≤ j := by
  induction t with
  | nil => intro i k j h; simp [nthIdxFrom] at h
  | cons a t ih =>
    intro i k j h
    rw [nthIdxFrom] at h
    by_cases ha : a = ch
    · rw [if_pos ha] at h
      by_cases hk : k = 0
      · rw [if_pos hk] at h
        simp only [Option.some.injEq] at h
        omega
      · rw [if_neg hk] at h
        have := ih (i + 1) (k - 1) j h
        omega
    · rw [if_neg ha] at h
      have := ih (i + 1) k j h
      omega

/-- `strchr` from an offset is the scanner looking for the first
occurrence. -/
theorem strchrIdx_eq (s : List Char) (start : ℕ) (ch : Char) :
    strchrIdx s start ch = nthIdxFrom ch (s.drop start) start 0 := by
  unfold strchrIdx
  generalize s.drop start = t
  induction t generalizing start with
  | nil => simp [nthIdxFrom, List.findIdx?]
  | cons a t ih =>
    rw [List.findIdx?_cons, nthIdxFrom]
    by_cases ha : a = ch
    · simp [ha]
    · rw [if_neg (by simpa using ha), if_neg ha, List.findIdx?_succ,
        Option.map_map, ← ih (start + 1)]
      congr 1
      funext x
      simp only [Function.comp_apply]
      omega

/-- Looking for the `(k+2)`-th occurrence is looking for the first, then
for the `(k+1)`-th after it. -/
theorem nthIdxFrom_succ (ch : Char) (t : List Char) :
    ∀ i k, nthIdxFrom ch t i (k + 1) =
      (nthIdxFrom ch t i 0).bind fun j =>
        nthIdxFrom ch (t.drop (j + 1 - i)) (j + 1) k := by
  induction t with
  | nil => intro i k; simp [nthIdxFrom]
  | cons a t ih =>
    intro i k
    by_cases ha : a = ch
    · have hhead : nthIdxFrom ch (a :: t) i 0 = some i := by
        rw [nthIdxFrom, if_pos ha]
        simp
      have hLHS : nthIdxFrom ch (a :: t) i (k + 1) =
          nthIdxFrom ch t (i + 1) k := by
        rw [nthIdxFrom, if_pos ha, if_neg (by omega : ¬ k + 1 = 0),
          Nat.add_sub_cancel]
      rw [hLHS, hhead]
      simp only [Option.some_bind]
      have h1 : i + 1 - i = 1 := by omega
      rw [h1]
      rfl
    · have hstep : ∀ m, nthIdxFrom ch (a :: t) i m =
          nthIdxFrom ch t (i + 1) m := by
        intro m
        rw [nthIdxFrom, if_neg ha]
      rw [hstep, hstep, ih (i + 1) k]
      cases hj : nthIdxFrom ch t (i + 1) 0 with
      | none => simp
      | some j =>
        have hij : i + 1 ≤ j := nthIdxFrom_le ch t (i + 1) 0 j hj
        simp only [Option.some_bind]
        have h2 : (a :: t).drop (j + 1 - i) = t.drop (j + 1 - (i + 1)) := by
          have h3 : j + 1 - i = (j - i) + 1 := by omega
          have h4 : j + 1 - (i + 1) = j - i := by omega
          rw [h3, h4]
          exact rfl
        rw [h2]

/-- The three-step `strchr` loop of `patch_uri` finds exactly the third
`'/'` among indices `≥ 1`. -/
theorem findSplit_eq_specSplit (s : List Char) :
    findSplit s = specSplit s := by
  unfold findSplit specSplit
  rw [show (2 : ℕ) = 1 + 1 from rfl, nthIdxFrom_succ, ← strchrIdx_eq]
  cases h1 : strchrIdx s 1 '/' with
  | none => rfl
  | some i =>
    simp only [Option.some_bind]
    have hd : (s.drop 1).drop (i + 1 - 1) = s.drop (i + 1) := by
      rw [show i + 1 - 1 = i from rfl, List.drop_drop]
      congr 1
      omega
    rw [hd, show (1 : ℕ) = 0 + 1 from rfl, nthIdxFrom_succ, ← strchrIdx_eq]
    cases h2 : strchrIdx s (i + 1) '/' with
    | none => rfl
    | some j =>
      have hj : i + 1 ≤ j := by
        have h5 := nthIdxFrom_le '/' (s.drop (i + 1)) (i + 1) 0 j
          (by rw [← strchrIdx_eq]; exact h2)
        omega
      simp only [Option.some_bind]
      have hd2 : (s.drop (i + 1)).drop (j + 1 - (i + 1)) = s.drop (j + 1) := by
        rw [List.drop_drop]
        congr 1
        omega
      rw [hd2, ← strchrIdx_eq]

/-- C1 (amended): for every endpoint and every handshake frame carrying the
`core_patch_url` sentinel and a non-null new path, with the allocation
succeeding: if the endpoint has at least three `'/'` delimiters searching
from its second character, the result is the prefix up to (excluding) the
third such `'/'` with the new path appended; with fewer such delimiters the
new path is appended to the whole endpoint — not a no-op. -/
theorem patch_uri_rewrite_spec (uri np : String) :
    patch_uri uri (some ⟨some "core_patch_url", some np⟩) true
      = some (rewriteSpec uri np) := by
  have h0 : patch_uri uri (some ⟨some "core_patch_url", some np⟩) true =
      some ⟨(match findSplit uri.data with
             | some i => uri.data.take i
             | none => uri.data) ++ np.data⟩ := rfl
  rw [h0, findSplit_eq_specSplit]
  unfold rewriteSpec
  cases specSplit uri.data with
  | some i => rfl
  | none =>
    show some (⟨uri.data ++ np.data⟩ : String) = some (uri ++ np)
    rfl

end C2Http
